import Mathlib

/-!
Verification development for the obsidian-paste-image-rename plugin
(src/main.ts, src/batch.ts).  JS strings are modelled as `List Char`;
the vault, metadata cache and editor are modelled at their interfaces.
The numeric values flowing through `parseInt` / `Math.max` / `+ 1` are
modelled as `Nat` (the inputs are decimal digit strings, so they are
non-negative; IEEE-754 precision loss above 2^53 is outside the model).
-/

/-- JS strings are sequences of characters. -/
abbrev Str := List Char

/-- Numeric value of a decimal digit character, as used by `parseInt`. -/
def digitVal (c : Char) : Nat := c.toNat - '0'.toNat

/-- `parseInt(ds, 10)` on a string of decimal digits. -/
def digitsToNat (ds : Str) : Nat := ds.foldl (fun a c => 10 * a + digitVal c) 0

/-- Fuel-indexed decimal printer (the fuel makes it structurally recursive,
so that it reduces inside `decide`/`rfl`). -/
def toDecimalAux : Nat → Nat → Str
  | 0, _ => []
  | fuel + 1, n =>
    if n < 10 then [Nat.digitChar n]
    else toDecimalAux fuel (n / 10) ++ [Nat.digitChar (n % 10)]

/-- JS template-literal rendering of a non-negative number, i.e. the
decimal representation produced by the interpolation in the source. -/
def toDecimal (n : Nat) : Str := toDecimalAux (n + 1) n

theorem digitsToNat_append (ds : Str) (c : Char) :
    digitsToNat (ds ++ [c]) = 10 * digitsToNat ds + digitVal c := by
  simp [digitsToNat, List.foldl_append]

theorem digitVal_digitChar : ∀ n < 10, digitVal (Nat.digitChar n) = n := by decide

theorem isDigit_digitChar : ∀ n < 10, (Nat.digitChar n).isDigit = true := by decide

theorem toDecimalAux_spec : ∀ (fuel n : Nat), n < fuel →
    digitsToNat (toDecimalAux fuel n) = n ∧
    toDecimalAux fuel n ≠ [] ∧
    (toDecimalAux fuel n).all Char.isDigit = true := by
  intro fuel
  induction fuel with
  | zero => intro n h; omega
  | succ f ih =>
    intro n h
    by_cases h10 : n < 10
    · simp only [toDecimalAux, if_pos h10]
      refine ⟨?_, by simp, ?_⟩
      · simpa [digitsToNat] using digitVal_digitChar n h10
      · simpa [List.all] using isDigit_digitChar n h10
    · have hdiv : n / 10 < n := Nat.div_lt_self (by omega) (by omega)
      have hf : n / 10 < f := by omega
      obtain ⟨h1, h2, h3⟩ := ih (n / 10) hf
      simp only [toDecimalAux, if_neg h10]
      refine ⟨?_, by simp, ?_⟩
      · rw [digitsToNat_append, h1, digitVal_digitChar (n % 10) (by omega)]
        omega
      · simp only [List.all_append, h3, Bool.true_and, List.all_cons, List.all_nil,
          Bool.and_true]
        exact isDigit_digitChar (n % 10) (by omega)

theorem toDecimal_spec (n : Nat) :
    digitsToNat (toDecimal n) = n ∧ toDecimal n ≠ [] ∧
    (toDecimal n).all Char.isDigit = true :=
  toDecimalAux_spec (n + 1) n (by omega)

/-- Modelled from the spec: `path.extension` from the missing `utils.ts` —
"extension is everything after the final dot" (§4.3 step 1).  When the
name has no dot the spec leaves the behaviour undefined (caller contract
violation); this model then returns the whole string. -/
def extensionOf (s : Str) : Str := (s.reverse.takeWhile (fun c => c ≠ '.')).reverse

theorem takeWhile_append_of_all {p : Char → Bool} (l1 l2 : Str)
    (h : ∀ c ∈ l1, p c = true) (c0 : Char) (hc0 : p c0 = false) :
    (l1 ++ c0 :: l2).takeWhile p = l1 := by
  induction l1 with
  | nil => simp [List.takeWhile, hc0]
  | cons a t ih =>
    have ha : p a = true := h a (by simp)
    simp only [List.cons_append, List.takeWhile, ha]
    rw [show t.append (c0 :: l2) = t ++ c0 :: l2 from rfl,
      ih (fun c hc => h c (by simp [hc]))]

theorem extensionOf_append (stem ext : Str) (h : '.' ∉ ext) :
    extensionOf (stem ++ '.' :: ext) = ext := by
  unfold extensionOf
  have hrev : (stem ++ '.' :: ext).reverse = ext.reverse ++ '.' :: stem.reverse := by
    simp
  rw [hrev, takeWhile_append_of_all ext.reverse stem.reverse
    (fun c hc => by
      simp only [List.mem_reverse] at hc
      have : c ≠ '.' := fun he => h (he ▸ hc)
      simpa using this)
    '.' (by simp), List.reverse_reverse]

theorem take_stem_of_append (x ext : Str) :
    (x ++ '.' :: ext).take ((x ++ '.' :: ext).length - ext.length - 1) = x := by
  have hlen : (x ++ '.' :: ext).length - ext.length - 1 = x.length := by
    simp only [List.length_append, List.length_cons]
    omega
  rw [hlen]
  exact List.take_left x ('.' :: ext)

/-- Result record of `deduplicateNewName` (the `NameObj` interface from the
missing `utils.ts`, whose shape is visible from the construction site at
`src/main.ts:582-586`). -/
structure NameObj where
  name : Str
  stem : Str
  extension : Str
deriving DecidableEq, Repr

/-- The duplicate-numbering policy slice of the plugin settings
(`dupNumberAtStart`, `dupNumberDelimiter`, `dupNumberAlways`). -/
structure DupPolicy where
  atStart : Bool
  delimiter : Str
  always : Bool
deriving DecidableEq, Repr

/-- Full-anchored match of the pattern `^A(\d+)B$` where `A` and `B` are
literal strings, returning the captured number.  Because the pattern is
anchored at both ends and `A`, `B` are fixed literals, the length of the
digit run is forced to `sib.length - A.length - B.length`, so the regex
match of `src/main.ts:547-551` is equivalent to this length-determined
decomposition. -/
def matchNumbered (A B sib : Str) : Option Nat :=
  if A.length + B.length < sib.length ∧ sib.take A.length = A ∧
      sib.drop (sib.length - B.length) = B ∧
      ((sib.drop A.length).take (sib.length - A.length - B.length)).all Char.isDigit = true
  then some (digitsToNat ((sib.drop A.length).take (sib.length - A.length - B.length)))
  else none

theorem matchNumbered_eq_some_iff (A B sib : Str) (n : Nat) :
    matchNumbered A B sib = some n ↔
      ∃ ds : Str, ds ≠ [] ∧ ds.all Char.isDigit = true ∧ digitsToNat ds = n ∧
        sib = A ++ ds ++ B := by
  constructor
  · intro h
    unfold matchNumbered at h
    split at h
    case isTrue hc =>
      obtain ⟨hlen, htake, hdrop, hdig⟩ := hc
      injection h with hval
      refine ⟨(sib.drop A.length).take (sib.length - A.length - B.length), ?_, hdig, hval, ?_⟩
      · intro hnil
        have hd : (sib.drop A.length).length = sib.length - A.length := by
          simp [List.length_drop]
        have hmin := congrArg List.length hnil
        simp only [List.length_take, hd, List.length_nil] at hmin
        omega
      · have e1 : sib = sib.take A.length ++ sib.drop A.length :=
          (List.take_append_drop _ _).symm
        have e2 : sib.drop A.length =
            (sib.drop A.length).take (sib.length - A.length - B.length) ++
            (sib.drop A.length).drop (sib.length - A.length - B.length) :=
          (List.take_append_drop _ _).symm
        have e3 : (sib.drop A.length).drop (sib.length - A.length - B.length) =
            sib.drop (sib.length - B.length) := by
          rw [List.drop_drop]
          congr 1
          omega
        have hfin : sib = A ++
            ((sib.drop A.length).take (sib.length - A.length - B.length) ++
             sib.drop (sib.length - B.length)) := by
          conv_lhs => rw [e1, htake, e2, e3]
        conv_lhs => rw [hfin, hdrop]
        rw [List.append_assoc]
    case isFalse => exact absurd h (by simp)
  · rintro ⟨ds, hne, hdig, hval, rfl⟩
    have hlen : (A ++ ds ++ B).length = A.length + ds.length + B.length := by
      simp only [List.length_append]
    have hds : 0 < ds.length := List.length_pos.mpr hne
    have htake : (A ++ ds ++ B).take A.length = A := by
      rw [List.append_assoc]
      exact List.take_left A (ds ++ B)
    have hdropA : (A ++ ds ++ B).drop A.length = ds ++ B := by
      rw [List.append_assoc]
      exact List.drop_left A (ds ++ B)
    have hdropB : (A ++ ds ++ B).drop ((A ++ ds ++ B).length - B.length) = B := by
      have h1 : (A ++ ds ++ B).length - B.length = (A ++ ds).length := by
        simp only [hlen, List.length_append]
        omega
      rw [h1]
      exact List.drop_left (A ++ ds) B
    have hmid : ((A ++ ds ++ B).drop A.length).take ((A ++ ds ++ B).length - A.length - B.length)
        = ds := by
      rw [hdropA]
      have h2 : (A ++ ds ++ B).length - A.length - B.length = ds.length := by omega
      rw [h2]
      exact List.take_left ds B
    unfold matchNumbered
    rw [if_pos ⟨by omega, htake, hdropB, by rw [hmid]; exact hdig⟩, hmid, hval]

/-- The matching rule built at `src/main.ts:545-552`: prefix mode matches
`^(\d+)<delim><stem>\.<ext>$`, suffix mode `^(<stem>)<delim>(\d+)\.<ext>$`.
`stem` and `delimiter` are passed through `escapeRegExp` in the source, so
they match literally; `ext` is interpolated without escaping, so this model
is faithful for extensions free of regex metacharacters (the claims are
therefore stated under an alphanumeric-extension hypothesis). -/
def dupRegexMatch (p : DupPolicy) (stem ext sib : Str) : Option Nat :=
  if p.atStart then matchNumbered [] (p.delimiter ++ stem ++ '.' :: ext) sib
  else matchNumbered (stem ++ p.delimiter) ('.' :: ext) sib

/-- `deduplicateNewName` from `src/main.ts:532-587`.  The vault adapter's
listing is taken as the list of sibling file names (the source maps
`path.basename` over the adapter's paths; the spec's collaborator interface
`listSiblingNames` likewise yields names). -/
def deduplicateNewName (p : DupPolicy) (newName : Str) (files : List Str) : NameObj :=
  let newNameExt := extensionOf newName
  let newNameStem := newName.take (newName.length - newNameExt.length - 1)
  let dupNameNumbers := files.filterMap (fun sibling =>
    if sibling = newName then none else dupRegexMatch p newNameStem newNameExt sibling)
  let isNewNameExist := newName ∈ files
  let final :=
    if isNewNameExist ∨ p.always = true then
      let newNumber := if dupNameNumbers.length > 0 then dupNameNumbers.foldl Nat.max 0 + 1 else 1
      if p.atStart then toDecimal newNumber ++ p.delimiter ++ newNameStem ++ '.' :: newNameExt
      else newNameStem ++ p.delimiter ++ toDecimal newNumber ++ '.' :: newNameExt
    else newName
  { name := final,
    stem := final.take (final.length - newNameExt.length - 1),
    extension := newNameExt }

/-- The numbers collected from already-numbered siblings during the scan at
`src/main.ts:555-569` (a sibling equal to the candidate itself is skipped by
the `continue`). -/
def collectedNumbers (p : DupPolicy) (stem ext : Str) (files : List Str) : List Nat :=
  files.filterMap (fun sib =>
    if sib = stem ++ '.' :: ext then none else dupRegexMatch p stem ext sib)

/-- The next duplicate number chosen at `src/main.ts:573`:
`max(collected) + 1` when any numbers were collected, else `1`. -/
def nextNumber (nums : List Nat) : Nat :=
  if nums.length > 0 then nums.foldl Nat.max 0 + 1 else 1

/-- The numbered name built at `src/main.ts:575-579`: `N<delim>stem.ext` in
prefix mode, `stem<delim>N.ext` in suffix mode. -/
def formatNumbered (p : DupPolicy) (stem ext : Str) (n : Nat) : Str :=
  if p.atStart then toDecimal n ++ p.delimiter ++ stem ++ '.' :: ext
  else stem ++ p.delimiter ++ toDecimal n ++ '.' :: ext

theorem foldl_max_init_le (l : List Nat) : ∀ a : Nat, a ≤ l.foldl Nat.max a := by
  induction l with
  | nil => intro a; simp
  | cons c t ih =>
    intro a
    calc a ≤ Nat.max a c := Nat.le_max_left a c
    _ ≤ t.foldl Nat.max (Nat.max a c) := ih _

theorem le_foldl_max_of_mem : ∀ (l : List Nat) (x : Nat), x ∈ l →
    ∀ a : Nat, x ≤ l.foldl Nat.max a := by
  intro l
  induction l with
  | nil => intro x h; cases h
  | cons c t ih =>
    intro x h a
    simp only [List.foldl_cons]
    rcases List.mem_cons.mp h with rfl | hx
    · calc x ≤ Nat.max a x := Nat.le_max_right a x
      _ ≤ t.foldl Nat.max (Nat.max a x) := foldl_max_init_le t _
    · exact ih x hx (Nat.max a c)

/-- Central characterisation of `deduplicateNewName` on a well-formed
candidate `stem.ext` (callers must supply `stem.ext` per spec §4.3). -/
theorem deduplicateNewName_eq (p : DupPolicy) (stem ext : Str) (files : List Str)
    (h : '.' ∉ ext) :
    deduplicateNewName p (stem ++ '.' :: ext) files =
      { name := if (stem ++ '.' :: ext) ∈ files ∨ p.always = true
                then formatNumbered p stem ext (nextNumber (collectedNumbers p stem ext files))
                else stem ++ '.' :: ext,
        stem := if (stem ++ '.' :: ext) ∈ files ∨ p.always = true
                then (if p.atStart
                      then toDecimal (nextNumber (collectedNumbers p stem ext files)) ++
                        p.delimiter ++ stem
                      else stem ++ p.delimiter ++
                        toDecimal (nextNumber (collectedNumbers p stem ext files)))
                else stem,
        extension := ext } := by
  have hd := extensionOf_append stem ext h
  simp only [deduplicateNewName, hd, collectedNumbers, nextNumber, formatNumbered,
    take_stem_of_append]
  by_cases hc : stem ++ '.' :: ext ∈ files ∨ p.always = true
  · simp only [if_pos hc]
    by_cases ha : p.atStart = true
    · simp only [if_pos ha, take_stem_of_append]
    · simp only [if_neg ha, take_stem_of_append]
  · simp only [if_neg hc, take_stem_of_append]

theorem dot_not_mem_of_alphanum {ext : Str} (h : ext.all Char.isAlphanum = true) :
    '.' ∉ ext := by
  intro hmem
  have hdot : Char.isAlphanum '.' = true := List.all_eq_true.mp h '.' hmem
  simp [Char.isAlphanum, Char.isAlpha, Char.isUpper, Char.isLower, Char.isDigit] at hdot

theorem numbered_ne_plain (delim stem ext ds : Str) (hds : ds ≠ []) (b : Bool) :
    (if b = true then ds ++ delim ++ stem ++ '.' :: ext
     else stem ++ delim ++ ds ++ '.' :: ext) ≠ stem ++ '.' :: ext := by
  intro he
  have hpos : 0 < ds.length := List.length_pos.mpr hds
  by_cases hb : b = true
  · rw [if_pos hb] at he
    have hlen := congrArg List.length he
    simp only [List.length_append, List.length_cons] at hlen
    omega
  · rw [if_neg hb] at he
    have hlen := congrArg List.length he
    simp only [List.length_append, List.length_cons] at hlen
    omega

theorem dupRegexMatch_formatNumbered (p : DupPolicy) (stem ext : Str) (n : Nat) :
    dupRegexMatch p stem ext (formatNumbered p stem ext n) = some n := by
  obtain ⟨h1, h2, h3⟩ := toDecimal_spec n
  unfold dupRegexMatch formatNumbered
  by_cases hb : p.atStart = true
  · simp only [if_pos hb]
    exact (matchNumbered_eq_some_iff _ _ _ _).mpr
      ⟨toDecimal n, h2, h3, h1, by simp [List.append_assoc]⟩
  · simp only [if_neg hb]
    exact (matchNumbered_eq_some_iff _ _ _ _).mpr
      ⟨toDecimal n, h2, h3, h1, by simp [List.append_assoc]⟩

theorem formatNumbered_ne_plain (p : DupPolicy) (stem ext : Str) (n : Nat) :
    formatNumbered p stem ext n ≠ stem ++ '.' :: ext := by
  have h := numbered_ne_plain p.delimiter stem ext (toDecimal n) (toDecimal_spec n).2.1 p.atStart
  unfold formatNumbered
  by_cases hb : p.atStart = true
  · rw [if_pos hb] at h ⊢; exact h
  · rw [if_neg hb] at h ⊢; exact h

/-- Claim C1: for every candidate of the form `stem.ext` (with an
alphanumeric extension, so that the unescaped interpolation of the
extension into the duplicate-matching regex is literal), every sibling
listing and every duplicate policy, the name returned by
`deduplicateNewName` does not equal any file name present in the sibling
listing passed to it. -/
theorem deduplicateNewName_avoids_siblings (p : DupPolicy) (stem ext : Str)
    (files : List Str) (hext : ext.all Char.isAlphanum = true) :
    (deduplicateNewName p (stem ++ '.' :: ext) files).name ∉ files := by
  have hdot : '.' ∉ ext := dot_not_mem_of_alphanum hext
  rw [deduplicateNewName_eq p stem ext files hdot]
  by_cases hc : (stem ++ '.' :: ext) ∈ files ∨ p.always = true
  · simp only [if_pos hc]
    intro hmem
    have hself := dupRegexMatch_formatNumbered p stem ext
      (nextNumber (collectedNumbers p stem ext files))
    have hne := formatNumbered_ne_plain p stem ext
      (nextNumber (collectedNumbers p stem ext files))
    have hcoll : nextNumber (collectedNumbers p stem ext files) ∈
        collectedNumbers p stem ext files := by
      unfold collectedNumbers
      exact List.mem_filterMap.mpr ⟨_, hmem, by rw [if_neg hne]; exact hself⟩
    have hnil : collectedNumbers p stem ext files ≠ [] := by
      intro h0
      rw [h0] at hcoll
      cases hcoll
    have hle : nextNumber (collectedNumbers p stem ext files) ≤
        (collectedNumbers p stem ext files).foldl Nat.max 0 :=
      le_foldl_max_of_mem _ _ hcoll 0
    have heq : nextNumber (collectedNumbers p stem ext files) =
        (collectedNumbers p stem ext files).foldl Nat.max 0 + 1 := by
      unfold nextNumber
      rw [if_pos (List.length_pos.mpr hnil)]
    omega
  · simp only [if_neg hc]
    intro hmem
    exact hc (Or.inl hmem)

theorem deduplicateNewName_avoids_siblings_witness :
    (("png".toList).all Char.isAlphanum = true) ∧
    (deduplicateNewName ⟨false, "-".toList, false⟩ ("foo".toList ++ '.' :: "png".toList)
      ["foo.png".toList, "foo-1.png".toList, "foo-2.png".toList]).name ∉
      ["foo.png".toList, "foo-1.png".toList, "foo-2.png".toList] :=
  ⟨by decide, deduplicateNewName_avoids_siblings ⟨false, "-".toList, false⟩
    ("foo".toList) ("png".toList)
    ["foo.png".toList, "foo-1.png".toList, "foo-2.png".toList] (by decide)⟩

/-- Claim C2: for every candidate `stem.ext` (alphanumeric extension, see
`dupRegexMatch`), sibling listing and policy: when the candidate is present
in the listing or `policy.always` holds, `deduplicateNewName` returns the
numbered name `stem<delim>N.ext` (suffix mode) or `N<delim>stem.ext`
(prefix mode, per `policy.atStart`) where `N` is `max(collected) + 1` if
any numbers were collected and `1` otherwise; otherwise the candidate is
returned unchanged. -/
theorem deduplicateNewName_numbering (p : DupPolicy) (stem ext : Str)
    (files : List Str) (hext : ext.all Char.isAlphanum = true) :
    (deduplicateNewName p (stem ++ '.' :: ext) files).name =
      if (stem ++ '.' :: ext) ∈ files ∨ p.always = true
      then formatNumbered p stem ext (nextNumber (collectedNumbers p stem ext files))
      else stem ++ '.' :: ext := by
  rw [deduplicateNewName_eq p stem ext files (dot_not_mem_of_alphanum hext)]

theorem deduplicateNewName_numbering_witness :
    (("png".toList).all Char.isAlphanum = true) ∧
    (deduplicateNewName ⟨true, "-".toList, false⟩ ("foo".toList ++ '.' :: "png".toList)
      ["foo.png".toList, "1-foo.png".toList, "2-foo.png".toList]).name =
      (if ("foo".toList ++ '.' :: "png".toList) ∈
          ["foo.png".toList, "1-foo.png".toList, "2-foo.png".toList] ∨
          (⟨true, "-".toList, false⟩ : DupPolicy).always = true
       then formatNumbered ⟨true, "-".toList, false⟩ ("foo".toList) ("png".toList)
         (nextNumber (collectedNumbers ⟨true, "-".toList, false⟩ ("foo".toList) ("png".toList)
           ["foo.png".toList, "1-foo.png".toList, "2-foo.png".toList]))
       else "foo".toList ++ '.' :: "png".toList) :=
  ⟨by decide, deduplicateNewName_numbering ⟨true, "-".toList, false⟩
    ("foo".toList) ("png".toList)
    ["foo.png".toList, "1-foo.png".toList, "2-foo.png".toList] (by decide)⟩

/-- Claim C3: a sibling contributes a number to the collected set exactly
when it decomposes as `^(\d+)<delim><stem>\.<ext>$` (prefix mode) or
`^(<stem>)<delim>(\d+)\.<ext>$` (suffix mode) with the *literal* candidate
stem — `escapeRegExp` is applied to `stem` and `delimiter` in the source,
so the match is literal, not a wildcard; a sibling whose literal stem
differs from the candidate's contributes nothing. -/
theorem collectedNumbers_characterisation (p : DupPolicy) (stem ext : Str)
    (files : List Str) (hext : ext.all Char.isAlphanum = true) :
    ∀ n : Nat, n ∈ collectedNumbers p stem ext files ↔
      ∃ sib ∈ files, ∃ ds : Str, ds ≠ [] ∧ ds.all Char.isDigit = true ∧
        digitsToNat ds = n ∧
        sib = (if p.atStart = true then ds ++ p.delimiter ++ stem ++ '.' :: ext
               else stem ++ p.delimiter ++ ds ++ '.' :: ext) := by
  intro n
  constructor
  · intro hmem
    obtain ⟨sib, hsib, hf⟩ := List.mem_filterMap.mp hmem
    by_cases hskip : sib = stem ++ '.' :: ext
    · rw [if_pos hskip] at hf
      cases hf
    · rw [if_neg hskip] at hf
      unfold dupRegexMatch at hf
      by_cases hb : p.atStart = true
      · rw [if_pos hb] at hf
        obtain ⟨ds, hne, hdig, hval, hdec⟩ := (matchNumbered_eq_some_iff _ _ _ _).mp hf
        refine ⟨sib, hsib, ds, hne, hdig, hval, ?_⟩
        rw [if_pos hb, hdec]
        simp [List.append_assoc]
      · rw [if_neg hb] at hf
        obtain ⟨ds, hne, hdig, hval, hdec⟩ := (matchNumbered_eq_some_iff _ _ _ _).mp hf
        refine ⟨sib, hsib, ds, hne, hdig, hval, ?_⟩
        rw [if_neg hb, hdec]
  · rintro ⟨sib, hsib, ds, hne, hdig, hval, hdec⟩
    have hnotplain : sib ≠ stem ++ '.' :: ext := by
      rw [hdec]
      exact numbered_ne_plain p.delimiter stem ext ds hne p.atStart
    refine List.mem_filterMap.mpr ⟨sib, hsib, ?_⟩
    rw [if_neg hnotplain]
    unfold dupRegexMatch
    by_cases hb : p.atStart = true
    · rw [if_pos hb]
      refine (matchNumbered_eq_some_iff _ _ _ _).mpr ⟨ds, hne, hdig, hval, ?_⟩
      rw [hdec, if_pos hb]
      simp [List.append_assoc]
    · rw [if_neg hb]
      refine (matchNumbered_eq_some_iff _ _ _ _).mpr ⟨ds, hne, hdig, hval, ?_⟩
      rw [hdec, if_neg hb]

theorem collectedNumbers_characterisation_witness :
    (("png".toList).all Char.isAlphanum = true) ∧
    ((2 : Nat) ∈ collectedNumbers ⟨false, "-".toList, false⟩ ("foo".toList) ("png".toList)
        ["foo.png".toList, "foo-2.png".toList, "x-foo-9.png".toList] ↔
      ∃ sib ∈ ["foo.png".toList, "foo-2.png".toList, "x-foo-9.png".toList],
        ∃ ds : Str, ds ≠ [] ∧ ds.all Char.isDigit = true ∧ digitsToNat ds = 2 ∧
          sib = (if (⟨false, "-".toList, false⟩ : DupPolicy).atStart = true
                 then ds ++ "-".toList ++ "foo".toList ++ '.' :: "png".toList
                 else "foo".toList ++ "-".toList ++ ds ++ '.' :: "png".toList)) :=
  ⟨by decide, collectedNumbers_characterisation ⟨false, "-".toList, false⟩
    ("foo".toList) ("png".toList)
    ["foo.png".toList, "foo-2.png".toList, "x-foo-9.png".toList] (by decide) 2⟩

theorem takeWhile_dot_split : ∀ (r : Str), '.' ∈ r →
    ∃ u : Str, r = r.takeWhile (fun c => c ≠ '.') ++ '.' :: u := by
  intro r
  induction r with
  | nil => intro h; cases h
  | cons a t ih =>
    intro h
    by_cases ha : a = '.'
    · subst ha
      exact ⟨t, by simp [List.takeWhile]⟩
    · have hmem : '.' ∈ t := by
        rcases List.mem_cons.mp h with h1 | h1
        · exact absurd h1.symm ha
        · exact h1
      obtain ⟨u, hu⟩ := ih hmem
      refine ⟨u, ?_⟩
      have hpa : (fun c : Char => decide (c ≠ '.')) a = true := by
        simp [ha]
      simp only [List.takeWhile, hpa, List.cons_append]
      exact congrArg (a :: ·) hu

/-- Splitting a dot-containing name at its last dot: the name is
`stem ++ "." ++ extensionOf name` and the extension holds no dot. -/
theorem split_at_last_dot (s : Str) (h : '.' ∈ s) :
    ∃ stem : Str, s = stem ++ '.' :: extensionOf s ∧ '.' ∉ extensionOf s := by
  have hr : '.' ∈ s.reverse := List.mem_reverse.mpr h
  obtain ⟨u, hu⟩ := takeWhile_dot_split s.reverse hr
  refine ⟨u.reverse, ?_, ?_⟩
  · have h2 := congrArg List.reverse hu
    rw [List.reverse_reverse] at h2
    conv_lhs => rw [h2]
    simp [extensionOf]
  · intro hmem
    unfold extensionOf at hmem
    rw [List.mem_reverse] at hmem
    have := List.mem_takeWhile_imp hmem
    simp at this

/-- Claim C9: for any candidate containing a dot, the `deduplicateNewName`
result satisfies `name = stem ++ "." ++ extension`, and the result's
extension is the substring of the candidate after its last dot — duplicate
resolution never changes the extension. -/
theorem deduplicateNewName_extension_invariant (p : DupPolicy) (cand : Str)
    (files : List Str) (hdot : '.' ∈ cand) :
    (deduplicateNewName p cand files).name =
        (deduplicateNewName p cand files).stem ++ '.' ::
          (deduplicateNewName p cand files).extension ∧
    (deduplicateNewName p cand files).extension = extensionOf cand ∧
    '.' ∉ (deduplicateNewName p cand files).extension ∧
    cand = cand.take (cand.length - (extensionOf cand).length - 1) ++
      '.' :: extensionOf cand := by
  obtain ⟨stem0, hs, hnd⟩ := split_at_last_dot cand hdot
  generalize hec : extensionOf cand = ec at hs hnd ⊢
  subst hs
  rw [deduplicateNewName_eq p stem0 ec files hnd]
  refine ⟨?_, rfl, hnd, ?_⟩
  · by_cases hc : (stem0 ++ '.' :: ec) ∈ files ∨ p.always = true
    · simp only [if_pos hc]
      unfold formatNumbered
      by_cases hb : p.atStart = true
      · simp [if_pos hb, List.append_assoc]
      · simp [if_neg hb, List.append_assoc]
    · simp only [if_neg hc]
  · rw [take_stem_of_append stem0 ec]

theorem deduplicateNewName_extension_invariant_witness :
    ('.' ∈ ("a.b.png".toList)) ∧
    ((deduplicateNewName ⟨false, "-".toList, true⟩ ("a.b.png".toList)
        ["a.b.png".toList]).name =
        (deduplicateNewName ⟨false, "-".toList, true⟩ ("a.b.png".toList)
          ["a.b.png".toList]).stem ++ '.' ::
          (deduplicateNewName ⟨false, "-".toList, true⟩ ("a.b.png".toList)
            ["a.b.png".toList]).extension ∧
      (deduplicateNewName ⟨false, "-".toList, true⟩ ("a.b.png".toList)
          ["a.b.png".toList]).extension = extensionOf ("a.b.png".toList) ∧
      '.' ∉ (deduplicateNewName ⟨false, "-".toList, true⟩ ("a.b.png".toList)
          ["a.b.png".toList]).extension ∧
      "a.b.png".toList = ("a.b.png".toList).take (("a.b.png".toList).length -
          (extensionOf ("a.b.png".toList)).length - 1) ++
        '.' :: extensionOf ("a.b.png".toList)) :=
  ⟨by decide, deduplicateNewName_extension_invariant ⟨false, "-".toList, true⟩
    ("a.b.png".toList) ["a.b.png".toList] (by decide)⟩

/-- Result of `generateNewName` (`src/main.ts:499-529`). -/
structure NameGenResult where
  stem : Str
  newName : Str
  isMeaningful : Bool
deriving DecidableEq, Repr

/-- `generateNewName` from `src/main.ts:499-529`, parameterised over the
already-rendered stem (the call to `renderTemplate` lives in the missing
`template.ts`; the claims quantify over the rendered stem, so the renderer
is an input here).  The meaninglessness regex `[<delim>\s]` (built at
`src/main.ts:522` with the delimiter interpolated into the character class
unescaped) removes every character of the delimiter string and JS
whitespace; the model is faithful for delimiters that carry no
character-class metacharacter (claims are stated under that hypothesis).
JS `\s` is modelled by `Char.isWhitespace`. -/
def generateNewName (delim : Str) (stem : Str) (fileExt : Str) : NameGenResult :=
  { stem := stem,
    newName := stem ++ '.' :: fileExt,
    isMeaningful := !(stem.filter (fun c => !(decide (c ∈ delim) || c.isWhitespace))).isEmpty }

/-- The decision taken by `startRenameProcess` (`src/main.ts:191-198`)
once a name has been generated: a non-meaningful or non-auto rename opens
the confirmation modal (with an empty stem when not meaningful), otherwise
the rename is applied directly. -/
inductive RenameDecision where
  | modal (stem : Str)
  | autoApply (newName : Str)
deriving DecidableEq, Repr

def startRenameDecision (autoRename : Bool) (g : NameGenResult) : RenameDecision :=
  if !g.isMeaningful || !autoRename then
    RenameDecision.modal (if g.isMeaningful then g.stem else [])
  else RenameDecision.autoApply g.newName

/-- A delimiter whose interpolation into the character class `[<delim>\s]`
is literal: at most one character and none of `^`, `]`, `\`. -/
def classLiteralDelim (delim : Str) : Prop :=
  delim.length ≤ 1 ∧ '^' ∉ delim ∧ ']' ∉ delim ∧ '\\' ∉ delim

/-- Claim C4: for every configured delimiter (single, class-literal
character) and rendered stem, `isMeaningful` is true iff some character of
the stem survives removal of whitespace and the delimiter characters —
equivalently, the stem with those characters removed is non-empty — and an
empty rendered stem is never meaningful, so the system opens the
confirmation modal instead of auto-renaming. -/
theorem generateNewName_meaningfulness (delim stem fileExt : Str)
    (hd : classLiteralDelim delim) :
    ((generateNewName delim stem fileExt).isMeaningful = true ↔
      ∃ c ∈ stem, c ∉ delim ∧ c.isWhitespace = false) ∧
    (stem = [] →
      (generateNewName delim stem fileExt).isMeaningful = false ∧
      ∀ autoRename : Bool,
        startRenameDecision autoRename (generateNewName delim stem fileExt) =
          RenameDecision.modal []) := by
  constructor
  · simp only [generateNewName, Bool.not_eq_true', List.isEmpty_eq_false_iff_exists_mem]
    constructor
    · rintro ⟨c, hc⟩
      rw [List.mem_filter] at hc
      refine ⟨c, hc.1, ?_, ?_⟩
      · intro hmem
        have := hc.2
        simp [hmem] at this
      · have := hc.2
        by_cases hw : c.isWhitespace = true
        · simp [hw] at this
        · simpa using hw
    · rintro ⟨c, hmem, hnd, hnw⟩
      refine ⟨c, List.mem_filter.mpr ⟨hmem, ?_⟩⟩
      simp [hnd, hnw]
  · intro hstem
    subst hstem
    refine ⟨by simp [generateNewName], fun autoRename => ?_⟩
    simp [startRenameDecision, generateNewName]

theorem generateNewName_meaningfulness_witness :
    classLiteralDelim ("-".toList) ∧
    (((generateNewName ("-".toList) [] ("png".toList)).isMeaningful = true ↔
        ∃ c ∈ ([] : Str), c ∉ "-".toList ∧ c.isWhitespace = false) ∧
      (([] : Str) = [] →
        (generateNewName ("-".toList) [] ("png".toList)).isMeaningful = false ∧
        ∀ autoRename : Bool,
          startRenameDecision autoRename (generateNewName ("-".toList) [] ("png".toList)) =
            RenameDecision.modal [])) :=
  ⟨⟨by decide, by decide, by decide, by decide⟩,
    generateNewName_meaningfulness ("-".toList) [] ("png".toList)
      ⟨by decide, by decide, by decide, by decide⟩⟩

/-- Claim C8: the name returned by `generateNewName` is the rendered stem
plus a dot plus the attachment's own extension — name generation never
changes the extension — and the generated name's extension is non-empty
whenever the attachment's extension is. -/
theorem generateNewName_keeps_extension (delim stem ext : Str) (hdot : '.' ∉ ext) :
    (generateNewName delim stem ext).newName = stem ++ '.' :: ext ∧
    extensionOf ((generateNewName delim stem ext).newName) = ext ∧
    (ext ≠ [] → extensionOf ((generateNewName delim stem ext).newName) ≠ []) := by
  refine ⟨rfl, ?_, ?_⟩
  · show extensionOf (stem ++ '.' :: ext) = ext
    exact extensionOf_append stem ext hdot
  · intro hne
    show extensionOf (stem ++ '.' :: ext) ≠ []
    rw [extensionOf_append stem ext hdot]
    exact hne

theorem generateNewName_keeps_extension_witness :
    ('.' ∉ ("png".toList)) ∧
    ((generateNewName ("-".toList) ("foo".toList) ("png".toList)).newName =
        "foo".toList ++ '.' :: "png".toList ∧
      extensionOf ((generateNewName ("-".toList) ("foo".toList) ("png".toList)).newName) =
        "png".toList ∧
      (("png".toList) ≠ [] →
        extensionOf ((generateNewName ("-".toList) ("foo".toList) ("png".toList)).newName) ≠
          [])) :=
  ⟨by decide, generateNewName_keeps_extension ("-".toList) ("foo".toList) ("png".toList)
    (by decide)⟩

/-- The compression-relevant slice of the plugin settings consumed by
`getOptimalDefaultFormat` (`src/main.ts:774-799`). -/
structure CompressSettings where
  enableCompression : Bool
  outputFormat : Str
  smartFormatSelection : Bool
deriving DecidableEq, Repr

/-- `getOptimalDefaultFormat` from `src/main.ts:774-799`.  The DOM canvas
capability probes `supportsAvif` / `supportsWebp` are passed in as the
booleans they return. -/
def getOptimalDefaultFormat (s : CompressSettings) (supportsAvif supportsWebp : Bool)
    (originalExtension : Str) : Str :=
  if s.enableCompression = false then originalExtension
  else if s.outputFormat ≠ "auto".toList then s.outputFormat
  else if s.smartFormatSelection = true then
    if supportsAvif = true ∧ originalExtension ≠ "gif".toList then "avif".toList
    else if supportsWebp = true then "webp".toList
    else "jpg".toList
  else "webp".toList

/-- Claim C5: the format selection policy returns the original extension
when compression is disabled; the configured format when a non-automatic
output format is set; in smart mode the fixed preference order AVIF, then
WebP, then JPG, taking the first probe-supported format and never AVIF for
a gif source (so with neither AVIF nor WebP supported it returns JPG); and
the generic fallback WebP when smart selection is off. -/
theorem getOptimalDefaultFormat_policy (s : CompressSettings)
    (supportsAvif supportsWebp : Bool) (originalExtension : Str) :
    (s.enableCompression = false →
      getOptimalDefaultFormat s supportsAvif supportsWebp originalExtension =
        originalExtension) ∧
    (s.enableCompression = true → s.outputFormat ≠ "auto".toList →
      getOptimalDefaultFormat s supportsAvif supportsWebp originalExtension =
        s.outputFormat) ∧
    (s.enableCompression = true → s.outputFormat = "auto".toList →
      s.smartFormatSelection = true →
      (getOptimalDefaultFormat s supportsAvif supportsWebp originalExtension =
          (if supportsAvif = true ∧ originalExtension ≠ "gif".toList then "avif".toList
           else if supportsWebp = true then "webp".toList
           else "jpg".toList) ∧
        (originalExtension = "gif".toList →
          getOptimalDefaultFormat s supportsAvif supportsWebp originalExtension ≠
            "avif".toList) ∧
        (supportsAvif = false → supportsWebp = false →
          getOptimalDefaultFormat s supportsAvif supportsWebp originalExtension =
            "jpg".toList))) ∧
    (s.enableCompression = true → s.outputFormat = "auto".toList →
      s.smartFormatSelection = false →
      getOptimalDefaultFormat s supportsAvif supportsWebp originalExtension =
        "webp".toList) := by
  refine ⟨?_, ?_, ?_, ?_⟩
  · intro h
    unfold getOptimalDefaultFormat
    rw [if_pos h]
  · intro h1 h2
    unfold getOptimalDefaultFormat
    rw [if_neg (by simp [h1]), if_pos h2]
  · intro h1 h2 h3
    unfold getOptimalDefaultFormat
    rw [if_neg (by simp [h1]), if_neg (by simp [h2]), if_pos h3]
    refine ⟨rfl, ?_, ?_⟩
    · intro hgif
      rw [if_neg (by simp [hgif])]
      by_cases hw : supportsWebp = true
      · rw [if_pos hw]
        decide
      · rw [if_neg hw]
        decide
    · intro ha hw
      rw [if_neg (by simp [ha]), if_neg (by simp [hw])]
  · intro h1 h2 h3
    unfold getOptimalDefaultFormat
    rw [if_neg (by simp [h1]), if_neg (by simp [h2]), if_neg (by simp [h3])]

theorem getOptimalDefaultFormat_policy_witness :
    getOptimalDefaultFormat ⟨true, "auto".toList, true⟩ false false ("png".toList) =
      "jpg".toList :=
  ((getOptimalDefaultFormat_policy ⟨true, "auto".toList, true⟩ false false
    ("png".toList)).2.2.1 rfl rfl rfl).2.2 rfl rfl

/-- Vault operations issued by `compressToFormat` (`src/main.ts:656-698`). -/
inductive VaultOp where
  | readBinary
  | deleteOriginal
  | createReplacement
deriving DecidableEq, Repr

/-- Existence of the original attachment and its replacement in the vault. -/
structure VaultFiles where
  origExists : Bool
  replExists : Bool
deriving DecidableEq, Repr

/-- Straight-line trace of `compressToFormat` (`src/main.ts:656-698`):
read the original, and unless re-encoding (`compressBlob`) failed, delete
the original (line 681) and then attempt `createBinary` (line 683).
Returns the issued vault operations and whether a new file was returned
(`null` on any failure, via the catch). -/
def compressToFormatTrace (reencodeOk createOk : Bool) : List VaultOp × Bool :=
  if reencodeOk = false then ([VaultOp.readBinary], false)
  else ([VaultOp.readBinary, VaultOp.deleteOriginal, VaultOp.createReplacement], createOk)

/-- Final vault state after `compressToFormat`: on re-encode failure the
function returns before the delete, so the original survives; otherwise
the original is deleted first and the replacement exists only if
`createBinary` succeeded. -/
def compressToFormatRun (reencodeOk createOk : Bool) : VaultFiles × Bool :=
  if reencodeOk = false then ({ origExists := true, replExists := false }, false)
  else if createOk = true then ({ origExists := false, replExists := true }, true)
  else ({ origExists := false, replExists := false }, false)

/-- Claim C6 (refuted — the code deletes first): in the conversion path
the delete of the original is issued strictly before the replacement is
written, even in the success trace; when `createBinary` then fails, the
final state has the original deleted and no replacement, contradicting
"the original file is never deleted before the replacement has been
successfully written".  The re-encode-failure half of the claim does hold:
that path returns before the delete, preserving the original bytes. -/
theorem compressToFormat_delete_precedes_create :
    (compressToFormatTrace true true).1.indexOf VaultOp.deleteOriginal <
      (compressToFormatTrace true true).1.indexOf VaultOp.createReplacement ∧
    (compressToFormatRun true false).1 = { origExists := false, replExists := false } ∧
    (compressToFormatRun false false).1 = { origExists := true, replExists := false } := by
  decide

/-- Notices surfaced to the user, as relevant to the batch claims. -/
inductive NoticeEv where
  | renamed
  | failedRename
deriving DecidableEq, Repr

/-- `renameFile` (`src/main.ts:201-253`) at the vault interface: on a
vault `renameFile` failure it surfaces a `Failed to rename` notice and
re-throws (`throw err`, line 216); on success with `replaceCurrentLine`
unset it returns silently, otherwise it rewrites the link and surfaces a
`Renamed` notice unless notices are disabled.  (The editor-missing branch
of the success path is not modelled; the claims here concern the failure
path.)  Result: notices surfaced, and whether the promise resolved
(`false` = rejected). -/
def renameFileRun (vaultOk replaceCurrentLine disableNotice : Bool) :
    List NoticeEv × Bool :=
  if vaultOk = false then ([NoticeEv.failedRename], false)
  else if replaceCurrentLine = false then ([], true)
  else ((if disableNotice = true then [] else [NoticeEv.renamed]), true)

/-- `renameAll` of the batch-rename modal (`src/batch.ts` lines 1445-1450
of the concatenated source) driving `renameFile` over the task list: each
task awaits `renameFile`; a rejected promise propagates out of the loop.
Input: per-task vault outcomes.  Output: surfaced notices, number of tasks
attempted, and whether the whole batch resolved. -/
def renameAllRun (disableNotice : Bool) : List Bool → List NoticeEv × Nat × Bool
  | [] => ([], 0, true)
  | ok :: rest =>
    let r := renameFileRun ok false disableNotice
    if r.2 = true then
      let rec2 := renameAllRun disableNotice rest
      (r.1 ++ rec2.1, rec2.2.1 + 1, rec2.2.2)
    else (r.1, 1, false)

/-- Counterexample to claim C7 at a concrete input: a two-task batch whose
first rename fails attempts only one task — the failure is surfaced as a
notice, but the batch does not continue to the next item. -/
theorem renameAll_stops_at_failure_counterexample :
    (renameAllRun false [false, true]).2.1 = 1 ∧
    ¬((renameAllRun false [false, true]).2.1 = 2) ∧
    NoticeEv.failedRename ∈ (renameAllRun false [false, true]).1 := by
  decide

/-- Claim C7 as amended: a rename failure inside a batch is surfaced as a
user-visible notice and aborts that file, but the re-thrown error stops
the batch at the first failing task — when every task succeeds all of them
are attempted, and otherwise exactly the successful head run plus the
first failing task are attempted and the batch rejects with the failure
notice surfaced. -/
theorem renameAll_aborts_on_first_failure (disableNotice : Bool) (tasks : List Bool) :
    (tasks.all id = true →
      (renameAllRun disableNotice tasks).2.1 = tasks.length ∧
      (renameAllRun disableNotice tasks).2.2 = true) ∧
    (tasks.all id = false →
      (renameAllRun disableNotice tasks).2.1 = (tasks.takeWhile id).length + 1 ∧
      (renameAllRun disableNotice tasks).2.2 = false ∧
      NoticeEv.failedRename ∈ (renameAllRun disableNotice tasks).1) := by
  induction tasks with
  | nil => simp [renameAllRun]
  | cons ok rest ih =>
    cases ok
    case false =>
      have hrun : renameAllRun disableNotice (false :: rest) =
          ([NoticeEv.failedRename], 1, false) := by
        simp [renameAllRun, renameFileRun]
      constructor
      · intro hall
        simp at hall
      · intro _
        rw [hrun]
        refine ⟨?_, rfl, by simp⟩
        simp [List.takeWhile]
    case true =>
      have hrun : renameAllRun disableNotice (true :: rest) =
          ((renameAllRun disableNotice rest).1,
            (renameAllRun disableNotice rest).2.1 + 1,
            (renameAllRun disableNotice rest).2.2) := by
        simp [renameAllRun, renameFileRun]
      constructor
      · intro hall
        have hrest : rest.all id = true := by simpa using hall
        obtain ⟨h1, h2⟩ := ih.1 hrest
        rw [hrun]
        exact ⟨by simp [h1], h2⟩
      · intro hall
        have hrest : rest.all id = false := by simpa using hall
        obtain ⟨h1, h2, h3⟩ := ih.2 hrest
        rw [hrun]
        refine ⟨?_, h2, h3⟩
        simp [List.takeWhile_cons, h1]

theorem renameAll_aborts_on_first_failure_witness :
    (([true, false, true].all id) = false) ∧
    ((renameAllRun false [true, false, true]).2.1 =
        ([true, false, true].takeWhile id).length + 1 ∧
      (renameAllRun false [true, false, true]).2.2 = false ∧
      NoticeEv.failedRename ∈ (renameAllRun false [true, false, true]).1) :=
  ⟨by decide, (renameAll_aborts_on_first_failure false [true, false, true]).2 (by decide)⟩

/-- The name marker Obsidian gives pasted images (`PASTED_IMAGE_PREFIX`,
`src/main.ts:79`); `isPastedImage` (`src/main.ts:827-834`) tests it with
`startsWith`. -/
def pastedImageMarker : Str := "Pasted image ".toList

/-- `testExcludeExtension` (`src/main.ts:641-645`): an empty pattern
excludes nothing, otherwise the configured regex is tested against the
extension.  The user-configured regex engine is abstracted as the
`regexTest` function argument. -/
def testExcludeExtension (regexTest : Str → Str → Bool) (pattern ext : Str) : Bool :=
  if pattern = [] then false else regexTest pattern ext

/-- The guard chain of the vault `create` handler (`src/main.ts:94-127`):
ignore non-files, files created more than 1000 ms before the event is
handled, markdown files, and files created by the compression process;
then start the rename process for pasted images, and otherwise only when
`handleAllAttachments` is enabled and the extension is not excluded.
Returns whether `startRenameProcess` is invoked. -/
def onCreateDecision (handleAllAttachments : Bool) (excludePattern : Str)
    (regexTest : Str → Str → Bool) (isTFile : Bool) (now ctime : Int)
    (isProcessingCompression : Bool) (name ext : Str) : Bool :=
  if isTFile = false then false
  else if now - ctime > 1000 then false
  else if ext = "md".toList then false
  else if isProcessingCompression = true then false
  else if pastedImageMarker.isPrefixOf name then true
  else if handleAllAttachments = true then
    if testExcludeExtension regexTest excludePattern ext = true then false else true
  else false

/-- Claim C10: the create handler never starts the rename process for a
markdown file, for a file whose creation time is more than 1000 ms in the
past, or for a file that neither bears the pasted-image name marker nor
satisfies (handleAllAttachments enabled and extension not matched by the
configured exclude pattern). -/
theorem onCreateDecision_guards (handleAllAttachments : Bool) (excludePattern : Str)
    (regexTest : Str → Str → Bool) (isTFile : Bool) (now ctime : Int)
    (isProcessingCompression : Bool) (name ext : Str)
    (h : onCreateDecision handleAllAttachments excludePattern regexTest isTFile
      now ctime isProcessingCompression name ext = true) :
    ext ≠ "md".toList ∧ now - ctime ≤ 1000 ∧
      (pastedImageMarker.isPrefixOf name = true ∨
        (handleAllAttachments = true ∧
          testExcludeExtension regexTest excludePattern ext = false)) := by
  unfold onCreateDecision at h
  by_cases h1 : isTFile = false
  · rw [if_pos h1] at h
    cases h
  rw [if_neg h1] at h
  by_cases h2 : now - ctime > 1000
  · rw [if_pos h2] at h
    cases h
  rw [if_neg h2] at h
  by_cases h3 : ext = "md".toList
  · rw [if_pos h3] at h
    cases h
  rw [if_neg h3] at h
  by_cases h4 : isProcessingCompression = true
  · rw [if_pos h4] at h
    cases h
  rw [if_neg h4] at h
  refine ⟨h3, by omega, ?_⟩
  by_cases h5 : pastedImageMarker.isPrefixOf name = true
  · exact Or.inl h5
  rw [if_neg h5] at h
  by_cases h6 : handleAllAttachments = true
  · rw [if_pos h6] at h
    refine Or.inr ⟨h6, ?_⟩
    by_cases h7 : testExcludeExtension regexTest excludePattern ext = true
    · rw [if_pos h7] at h
      cases h
    · simpa using h7
  · rw [if_neg h6] at h
    cases h

theorem onCreateDecision_guards_witness :
    (onCreateDecision false [] (fun _ _ => false) true 500 0 false
        ("Pasted image 1.png".toList) ("png".toList) = true) ∧
    (("png".toList) ≠ "md".toList ∧ (500 : Int) - 0 ≤ 1000 ∧
      (pastedImageMarker.isPrefixOf ("Pasted image 1.png".toList) = true ∨
        (false = true ∧
          testExcludeExtension (fun _ _ => false) [] ("png".toList) = false))) :=
  ⟨by decide, onCreateDecision_guards false [] (fun _ _ => false) true 500 0 false
    ("Pasted image 1.png".toList) ("png".toList) (by decide)⟩
